import Mathlib

/-!
Verification of the core of `vscode-log-watcher`.

Strings from the TypeScript source are modelled as `List Char`; file contents
and byte buffers are likewise `List Char` (the watched files are text logs and
the source decodes every buffer as UTF-8 immediately, so a character list is a
faithful view of the data the algorithms operate on).

The embedded functions mirror, statement by statement:
  * `extractLinesFromChunk`, `countTotalLines`, `readTailLines` and the
    `LogWatcher` class from `src/services/logWatcher.ts`;
  * `compileContentTransform` / `applyContentTransform` from
    `src/utils/contentTransform.ts`;
  * `computeHighlights`, `detectLevel` and the pause/resume/reset handling of
    `src/stores/logState.ts`.
-/

/-- Model of `combined.replace(/\r\n/g, '\n')`: the JavaScript global replace scans left
to right and rewrites each (non-overlapping) two-character `"\r\n"` occurrence
to `"\n"`. -/
def normalizeNewlines : List Char → List Char
  | [] => []
  | [c] => [c]
  | c1 :: c2 :: rest =>
    if c1 = '\r' ∧ c2 = '\n' then '\n' :: normalizeNewlines rest
    else c1 :: normalizeNewlines (c2 :: rest)

/-- Model of `text.split('\n')` on JavaScript strings: always returns a non-empty list of
separator-free segments; `"".split('\n') = [""]`. -/
def splitNl : List Char → List (List Char)
  | [] => [[]]
  | c :: rest =>
    if c = '\n' then [] :: splitNl rest
    else
      match splitNl rest with
      | [] => [[c]]
      | s :: ss => (c :: s) :: ss

/-- Each listed segment followed by one `'\n'`; used to state how `splitNl`
decomposes a string. -/
def joinNlTerm : List (List Char) → List Char
  | [] => []
  | s :: ss => s ++ '\n' :: joinNlTerm ss

/-- Model of `extractLinesFromChunk(chunk, remainder)` from `logWatcher.ts`: concatenate,
normalize `"\r\n"` to `"\n"`, split on `"\n"`; if the normalized text does not
end in `"\n"` the popped last segment becomes the new remainder (`pop() ?? ''`),
otherwise a trailing empty segment is popped and the remainder is empty. -/
def extractLinesFromChunk (chunk remainder : List Char) : List (List Char) × List Char :=
  let combined := remainder ++ chunk
  let normalized := normalizeNewlines combined
  let parts := splitNl normalized
  if normalized.getLast? = some '\n' then
    if parts ≠ [] ∧ parts.getLast? = some [] then (parts.dropLast, []) else (parts, [])
  else (parts.dropLast, parts.getLast?.getD [])

/-- Feeding a sequence of chunks through `extractLinesFromChunk`, carrying each
call's remainder into the next and concatenating the produced lines. -/
def feedChunks : List (List Char) → List Char → List (List Char) × List Char
  | [], r => ([], r)
  | c :: cs, r =>
    let p := extractLinesFromChunk c r
    let q := feedChunks cs p.2
    (p.1 ++ q.1, q.2)

theorem getLast?_cons_ne_nil {α : Type} (a : α) :
    ∀ {l : List α}, l ≠ [] → (a :: l).getLast? = l.getLast?
  | [], h => absurd rfl h
  | _ :: _, _ => List.getLast?_cons_cons ..

theorem normalizeNewlines_cons_cons_pos {c1 c2 : Char} (rest : List Char)
    (h : c1 = '\r' ∧ c2 = '\n') :
    normalizeNewlines (c1 :: c2 :: rest) = '\n' :: normalizeNewlines rest := by
  simp only [normalizeNewlines]
  rw [if_pos h]

theorem normalizeNewlines_cons_cons_neg {c1 c2 : Char} (rest : List Char)
    (h : ¬(c1 = '\r' ∧ c2 = '\n')) :
    normalizeNewlines (c1 :: c2 :: rest) = c1 :: normalizeNewlines (c2 :: rest) := by
  simp only [normalizeNewlines]
  rw [if_neg h]

theorem normalizeNewlines_ne_nil : ∀ {l : List Char}, l ≠ [] → normalizeNewlines l ≠ []
  | [], h => absurd rfl h
  | [c], _ => by simp [normalizeNewlines]
  | c1 :: c2 :: rest, _ => by
    by_cases hc : c1 = '\r' ∧ c2 = '\n'
    · rw [normalizeNewlines_cons_cons_pos rest hc]
      simp
    · rw [normalizeNewlines_cons_cons_neg rest hc]
      simp

theorem normalizeNewlines_getLast? :
    ∀ l : List Char, (normalizeNewlines l).getLast? = l.getLast?
  | [] => rfl
  | [c] => rfl
  | c1 :: c2 :: rest => by
    by_cases hc : c1 = '\r' ∧ c2 = '\n'
    · rw [normalizeNewlines_cons_cons_pos rest hc]
      rcases hrest : rest with _ | ⟨d, ds⟩
      · simp [normalizeNewlines, hc.2]
      · rw [← hrest, getLast?_cons_ne_nil _ (normalizeNewlines_ne_nil (by simp [hrest])),
          normalizeNewlines_getLast? rest, List.getLast?_cons_cons,
          getLast?_cons_ne_nil _ (by simp [hrest])]
    · rw [normalizeNewlines_cons_cons_neg rest hc,
        getLast?_cons_ne_nil _ (normalizeNewlines_ne_nil (by simp)),
        normalizeNewlines_getLast? (c2 :: rest), List.getLast?_cons_cons]

theorem normalizeNewlines_of_not_mem_nl :
    ∀ {l : List Char}, '\n' ∉ l → normalizeNewlines l = l
  | [], _ => rfl
  | [c], _ => rfl
  | c1 :: c2 :: rest, h => by
    have h2 : '\n' ∉ c2 :: rest := fun hm => h (List.mem_cons_of_mem _ hm)
    have hc : ¬(c1 = '\r' ∧ c2 = '\n') := by
      rintro ⟨-, rfl⟩
      exact h2 (List.mem_cons_self _ _)
    rw [normalizeNewlines_cons_cons_neg rest hc, normalizeNewlines_of_not_mem_nl h2]

/-- How `normalizeNewlines` interacts with concatenation: the only possible
carry across the seam is a trailing `'\r'` meeting a leading `'\n'`. -/
theorem normalizeNewlines_append :
    ∀ (x y : List Char),
      normalizeNewlines (x ++ y) =
        if x.getLast? = some '\r' ∧ y.head? = some '\n' then
          (normalizeNewlines x).dropLast ++ '\n' :: normalizeNewlines y.tail
        else normalizeNewlines x ++ normalizeNewlines y
  | [], y => by simp [normalizeNewlines]
  | [c], y => by
    rcases y with _ | ⟨d, yt⟩
    · simp [normalizeNewlines]
    · show normalizeNewlines (c :: d :: yt) = _
      by_cases hc : c = '\r' ∧ d = '\n'
      · rw [normalizeNewlines_cons_cons_pos yt hc, if_pos (by simp [hc.1, hc.2])]
        rfl
      · rw [normalizeNewlines_cons_cons_neg yt hc, if_neg (by simpa using hc)]
        rfl
  | c1 :: c2 :: rest, y => by
    rw [List.cons_append, List.cons_append]
    by_cases hc : c1 = '\r' ∧ c2 = '\n'
    · rw [normalizeNewlines_cons_cons_pos (rest ++ y) hc,
        normalizeNewlines_append rest y,
        normalizeNewlines_cons_cons_pos rest hc]
      rcases hrest : rest with _ | ⟨d, ds⟩
      · rw [if_neg (by simp), if_neg (by simp [hc.2])]
        simp [normalizeNewlines]
      · rw [← hrest]
        have hne : rest ≠ [] := by simp [hrest]
        have hLast : (c1 :: c2 :: rest).getLast? = rest.getLast? := by
          rw [List.getLast?_cons_cons, getLast?_cons_ne_nil _ hne]
        rw [hLast]
        by_cases hcond : rest.getLast? = some '\r' ∧ y.head? = some '\n'
        · rw [if_pos hcond, if_pos hcond,
            List.dropLast_cons_of_ne_nil (normalizeNewlines_ne_nil hne)]
          rfl
        · rw [if_neg hcond, if_neg hcond]
          rfl
    · rw [normalizeNewlines_cons_cons_neg (rest ++ y) hc,
        ← List.cons_append c2 rest y,
        normalizeNewlines_append (c2 :: rest) y,
        normalizeNewlines_cons_cons_neg rest hc]
      have hLast : (c1 :: c2 :: rest).getLast? = (c2 :: rest).getLast? :=
        getLast?_cons_ne_nil _ (by simp)
      rw [hLast]
      by_cases hcond : (c2 :: rest).getLast? = some '\r' ∧ y.head? = some '\n'
      · rw [if_pos hcond, if_pos hcond,
          List.dropLast_cons_of_ne_nil (normalizeNewlines_ne_nil (by simp))]
        rfl
      · rw [if_neg hcond, if_neg hcond]
        rfl

theorem splitNl_ne_nil : ∀ {l : List Char}, splitNl l ≠ []
  | [] => by simp [splitNl]
  | c :: rest => by
    simp only [splitNl]
    split
    · simp
    · rcases h : splitNl rest with _ | ⟨s, ss⟩ <;> simp

theorem splitNl_cons_nl (rest : List Char) : splitNl ('\n' :: rest) = [] :: splitNl rest := by
  simp [splitNl]

theorem splitNl_cons_ne {c : Char} (h : c ≠ '\n') {rest : List Char} {s : List Char}
    {ss : List (List Char)} (hs : splitNl rest = s :: ss) :
    splitNl (c :: rest) = (c :: s) :: ss := by
  simp only [splitNl]
  rw [if_neg h, hs]

theorem not_mem_nl_of_mem_splitNl :
    ∀ (l s : List Char), s ∈ splitNl l → '\n' ∉ s
  | [], s, hs => by
    simp [splitNl] at hs
    simp [hs]
  | c :: rest, s, hs => by
    by_cases hc : c = '\n'
    · subst hc
      rw [splitNl_cons_nl] at hs
      rcases List.mem_cons.mp hs with hs | hs
      · simp [hs]
      · exact not_mem_nl_of_mem_splitNl rest s hs
    · rcases h : splitNl rest with _ | ⟨t, ts⟩
      · exact absurd h splitNl_ne_nil
      · rw [splitNl_cons_ne hc h] at hs
        rcases List.mem_cons.mp hs with hs | hs
        · subst hs
          have ht : '\n' ∉ t :=
            not_mem_nl_of_mem_splitNl rest t (h ▸ List.mem_cons_self t ts)
          simp [ht, Ne.symm hc]
        · exact not_mem_nl_of_mem_splitNl rest s (h ▸ List.mem_cons_of_mem t hs)

theorem splitNl_append_of_not_mem_nl :
    ∀ {x : List Char}, '\n' ∉ x → ∀ {y : List Char} {s : List Char} {ss : List (List Char)},
      splitNl y = s :: ss → splitNl (x ++ y) = (x ++ s) :: ss
  | [], _, y, s, ss, hy => by simpa using hy
  | c :: xs, hx, y, s, ss, hy => by
    have hc : c ≠ '\n' := fun h => hx (h ▸ List.mem_cons_self c xs)
    have hxs : '\n' ∉ xs := fun h => hx (List.mem_cons_of_mem _ h)
    rw [List.cons_append, splitNl_cons_ne hc (splitNl_append_of_not_mem_nl hxs hy),
      List.cons_append]

theorem splitNl_joinNlTerm_append :
    ∀ {xs : List (List Char)}, (∀ s ∈ xs, '\n' ∉ s) → ∀ (y : List Char),
      splitNl (joinNlTerm xs ++ y) = xs ++ splitNl y
  | [], _, y => by simp [joinNlTerm]
  | s :: ss, h, y => by
    have hs : '\n' ∉ s := h s (List.mem_cons_self s ss)
    have hss : ∀ t ∈ ss, '\n' ∉ t := fun t ht => h t (List.mem_cons_of_mem _ ht)
    have hrec := splitNl_joinNlTerm_append hss y
    rcases htail : splitNl (joinNlTerm ss ++ y) with _ | ⟨u, us⟩
    · exact absurd htail splitNl_ne_nil
    · rw [joinNlTerm, List.append_assoc, List.cons_append,
        splitNl_append_of_not_mem_nl hs (splitNl_cons_nl _), htail]
      rw [htail] at hrec
      simp [hrec]

/-- Any string is the `'\n'`-joined initial segments of its split followed by
the final segment. -/
theorem joinNlTerm_splitNl_decomp :
    ∀ l : List Char,
      joinNlTerm (splitNl l).dropLast ++ ((splitNl l).getLast?.getD []) = l
  | [] => by simp [splitNl, joinNlTerm]
  | c :: rest => by
    have hrec := joinNlTerm_splitNl_decomp rest
    rcases h : splitNl rest with _ | ⟨s, ss⟩
    · exact absurd h splitNl_ne_nil
    rw [h] at hrec
    by_cases hc : c = '\n'
    · subst hc
      rw [splitNl_cons_nl, h,
        List.dropLast_cons_of_ne_nil (by simp), getLast?_cons_ne_nil _ (by simp),
        joinNlTerm]
      simpa using hrec
    · rw [splitNl_cons_ne hc h]
      rcases ss with _ | ⟨t, ts⟩
      · simp [joinNlTerm] at hrec
        simp [joinNlTerm, hrec]
      · rw [List.dropLast_cons_of_ne_nil (by simp), getLast?_cons_ne_nil _ (by simp),
          joinNlTerm]
        rw [List.dropLast_cons_of_ne_nil (by simp), getLast?_cons_ne_nil _ (by simp),
          joinNlTerm] at hrec
        simp only [List.cons_append, List.append_assoc] at hrec ⊢
        rw [hrec]

theorem splitNl_of_not_mem_nl : ∀ {l : List Char}, '\n' ∉ l → splitNl l = [l]
  | [], _ => rfl
  | c :: rest, h => by
    have hc : c ≠ '\n' := fun hh => h (hh ▸ List.mem_cons_self c rest)
    have hrest : '\n' ∉ rest := fun hh => h (List.mem_cons_of_mem _ hh)
    rw [splitNl_cons_ne hc (splitNl_of_not_mem_nl hrest)]

theorem not_mem_nl_getLastD (l : List Char) : '\n' ∉ (splitNl l).getLast?.getD [] := by
  rcases h : (splitNl l).getLast? with _ | s
  · simp
  · have hmem : s ∈ splitNl l := by
      obtain ⟨hne, hx⟩ := List.mem_getLast?_eq_getLast (l := splitNl l) (x := s) (by simp [h])
      exact hx ▸ List.getLast_mem hne
    simpa using not_mem_nl_of_mem_splitNl l s hmem

theorem joinNlTerm_ne_nil : ∀ {xs : List (List Char)}, xs ≠ [] → joinNlTerm xs ≠ []
  | [], h => absurd rfl h
  | s :: ss, _ => by simp [joinNlTerm]

theorem joinNlTerm_getLast?_of_ne_nil :
    ∀ {xs : List (List Char)}, xs ≠ [] → (joinNlTerm xs).getLast? = some '\n'
  | [], h => absurd rfl h
  | s :: ss, _ => by
    rw [joinNlTerm, List.getLast?_append_of_ne_nil _ (by simp)]
    rcases hss : ss with _ | ⟨t, ts⟩
    · simp [joinNlTerm]
    · rw [getLast?_cons_ne_nil _ (joinNlTerm_ne_nil (by simp [hss]))]
      exact joinNlTerm_getLast?_of_ne_nil (by simp [hss])

theorem getLast?_splitNl_of_ends_nl {l : List Char} (h : l.getLast? = some '\n') :
    (splitNl l).getLast? = some [] := by
  rcases hlast : (splitNl l).getLast? with _ | s
  · exact absurd (List.getLast?_isSome.mpr (splitNl_ne_nil (l := l))) (by simp [hlast])
  · have hd := joinNlTerm_splitNl_decomp l
    rw [hlast] at hd
    simp only [Option.getD_some] at hd
    by_cases hs : s = []
    · rw [hs]
    · have hsl : l.getLast? = s.getLast? := by
        rw [← hd, List.getLast?_append_of_ne_nil _ hs]
      have hmem : '\n' ∈ s := by
        obtain ⟨hne, hx⟩ :=
          List.mem_getLast?_eq_getLast (l := s) (x := '\n') (by simp [← hsl, h])
        exact hx ▸ List.getLast_mem hne
      have hnl : '\n' ∉ s := by
        have := not_mem_nl_getLastD l
        rwa [hlast] at this
      exact absurd hmem hnl

/-- The two branches of `extractLinesFromChunk` collapse to a single shape: the
lines are all split segments but the last, and the remainder is the last
segment (which is empty exactly when the normalized text ends in `'\n'`). -/
theorem extractLinesFromChunk_eq (chunk remainder : List Char) :
    extractLinesFromChunk chunk remainder =
      ((splitNl (normalizeNewlines (remainder ++ chunk))).dropLast,
        (splitNl (normalizeNewlines (remainder ++ chunk))).getLast?.getD []) := by
  simp only [extractLinesFromChunk]
  by_cases hN : (normalizeNewlines (remainder ++ chunk)).getLast? = some '\n'
  · rw [if_pos hN, if_pos ⟨splitNl_ne_nil, getLast?_splitNl_of_ends_nl hN⟩,
      getLast?_splitNl_of_ends_nl hN]
    rfl
  · rw [if_neg hN]

/-- Splitting a chunk in two and carrying the remainder produces the same lines
and the same final remainder. -/
theorem extractLinesFromChunk_append (c1 c2 r : List Char) :
    extractLinesFromChunk (c1 ++ c2) r =
      ((extractLinesFromChunk c1 r).1 ++
          (extractLinesFromChunk c2 (extractLinesFromChunk c1 r).2).1,
        (extractLinesFromChunk c2 (extractLinesFromChunk c1 r).2).2) := by
  rw [extractLinesFromChunk_eq c1 r]
  set N1 := normalizeNewlines (r ++ c1) with hN1def
  set L1 := (splitNl N1).dropLast with hL1def
  set s1 := (splitNl N1).getLast?.getD [] with hs1def
  have hdec : joinNlTerm L1 ++ s1 = N1 := joinNlTerm_splitNl_decomp N1
  have hs1nl : '\n' ∉ s1 := hs1def ▸ not_mem_nl_getLastD N1
  have key : normalizeNewlines (r ++ (c1 ++ c2)) =
      joinNlTerm L1 ++ normalizeNewlines (s1 ++ c2) := by
    rw [← List.append_assoc, normalizeNewlines_append (r ++ c1) c2,
      normalizeNewlines_append s1 c2]
    have hgl : (r ++ c1).getLast? = N1.getLast? :=
      (normalizeNewlines_getLast? (r ++ c1)).symm
    rw [hgl]
    by_cases hs1e : s1 = []
    · have hnocr : N1.getLast? ≠ some '\r' := by
        rw [← hdec, hs1e, List.append_nil]
        rcases hL1 : L1 with _ | ⟨t, ts⟩
        · simp [joinNlTerm]
        · rw [← hL1, joinNlTerm_getLast?_of_ne_nil (by simp [hL1])]
          simp
      rw [if_neg (fun hh => hnocr hh.1), if_neg (by rw [hs1e]; simp), hs1e]
      simp only [normalizeNewlines]
      rw [List.nil_append, ← hN1def, ← hdec, hs1e, List.append_nil]
    · have hN1last : N1.getLast? = s1.getLast? := by
        rw [← hdec, List.getLast?_append_of_ne_nil _ hs1e]
      rw [hN1last]
      have hnorms1 : normalizeNewlines s1 = s1 := normalizeNewlines_of_not_mem_nl hs1nl
      by_cases hcond : s1.getLast? = some '\r' ∧ c2.head? = some '\n'
      · rw [if_pos hcond, if_pos hcond, hnorms1, ← hN1def, ← hdec,
          List.dropLast_append_of_ne_nil _ hs1e, List.append_assoc]
      · rw [if_neg hcond, if_neg hcond, hnorms1, ← hN1def, ← hdec, List.append_assoc]
  have hseg : ∀ t ∈ L1, '\n' ∉ t := fun t ht =>
    not_mem_nl_of_mem_splitNl N1 t (List.dropLast_subset _ ht)
  have hsplit : splitNl (normalizeNewlines (r ++ (c1 ++ c2))) =
      L1 ++ splitNl (normalizeNewlines (s1 ++ c2)) := by
    rw [key, splitNl_joinNlTerm_append hseg]
  rw [extractLinesFromChunk_eq (c1 ++ c2) r, extractLinesFromChunk_eq c2 s1, hsplit,
    List.dropLast_append_of_ne_nil _ splitNl_ne_nil,
    List.getLast?_append_of_ne_nil _ splitNl_ne_nil]

theorem feedChunks_eq_extract :
    ∀ (chunks : List (List Char)) (r : List Char), '\n' ∉ r →
      feedChunks chunks r = extractLinesFromChunk chunks.flatten r
  | [], r, hr => by
    show ([], r) = extractLinesFromChunk [] r
    rw [extractLinesFromChunk_eq, List.append_nil,
      normalizeNewlines_of_not_mem_nl hr, splitNl_of_not_mem_nl hr]
    rfl
  | c :: cs, r, hr => by
    have hrem : '\n' ∉ (extractLinesFromChunk c r).2 := by
      rw [extractLinesFromChunk_eq]
      exact not_mem_nl_getLastD _
    show ((extractLinesFromChunk c r).1 ++ (feedChunks cs (extractLinesFromChunk c r).2).1,
        (feedChunks cs (extractLinesFromChunk c r).2).2) = _
    rw [feedChunks_eq_extract cs (extractLinesFromChunk c r).2 hrem, List.flatten_cons,
      extractLinesFromChunk_append c cs.flatten r]

/-- C1: for every string `a` and every way of splitting `a` into a finite
sequence of chunks, feeding the chunks sequentially through
`extractLinesFromChunk` starting with an empty remainder and carrying each
call's remainder into the next yields the same concatenated line sequence and
the same final remainder as calling the reassembler once on the whole string
(`a = chunks.flatten`) with an empty remainder. -/
theorem c1_reassembler_chunking (chunks : List (List Char)) :
    feedChunks chunks [] = extractLinesFromChunk chunks.flatten [] :=
  feedChunks_eq_extract chunks [] (by simp)

/-- C2: `extractLinesFromChunk` concatenates remainder and chunk, normalizes
`"\r\n"` to `"\n"` and splits on `"\n"`; the lines are all segments but the
last; the new remainder is the last segment, except that it is empty when the
normalized text ends in `"\n"` (in which case the last segment is the dropped
trailing empty segment, which exists exactly when the text ends in `"\n"` or is
empty); and no returned line contains `"\n"`. -/
theorem c2_extract_behavior (chunk rem : List Char) :
    extractLinesFromChunk chunk rem =
        ((splitNl (normalizeNewlines (rem ++ chunk))).dropLast,
          if (normalizeNewlines (rem ++ chunk)).getLast? = some '\n' then []
          else (splitNl (normalizeNewlines (rem ++ chunk))).getLast?.getD [])
      ∧ ((splitNl (normalizeNewlines (rem ++ chunk))).getLast? = some [] ↔
          ((normalizeNewlines (rem ++ chunk)).getLast? = some '\n' ∨
            normalizeNewlines (rem ++ chunk) = []))
      ∧ ((extractLinesFromChunk chunk rem).1.all fun line =>
          line.all fun ch => decide (ch ≠ '\n')) = true := by
  refine ⟨?_, ⟨?_, ?_⟩, ?_⟩
  · rw [extractLinesFromChunk_eq]
    by_cases hN : (normalizeNewlines (rem ++ chunk)).getLast? = some '\n'
    · rw [if_pos hN, getLast?_splitNl_of_ends_nl hN]
      rfl
    · rw [if_neg hN]
  · intro hsome
    set N := normalizeNewlines (rem ++ chunk) with hNdef
    have hd := joinNlTerm_splitNl_decomp N
    rw [hsome] at hd
    simp only [Option.getD_some, List.append_nil] at hd
    rcases hL : (splitNl N).dropLast with _ | ⟨t, ts⟩
    · rw [hL] at hd
      right
      rw [← hd]
      rfl
    · left
      rw [← hd, joinNlTerm_getLast?_of_ne_nil (by simp [hL])]
  · rintro (h | h)
    · exact getLast?_splitNl_of_ends_nl h
    · rw [h]
      rfl
  · rw [List.all_eq_true]
    intro line hline
    rw [List.all_eq_true]
    intro ch hch
    have hmem : line ∈ splitNl (normalizeNewlines (rem ++ chunk)) := by
      rw [extractLinesFromChunk_eq] at hline
      exact List.dropLast_subset _ hline
    have hnl := not_mem_nl_of_mem_splitNl _ _ hmem
    simpa using fun hh : ch = '\n' => hnl (hh ▸ hch)

/-! ## Tail reader (`countTotalLines`, `readTailLines`)

A file handle is modelled by the file's character content; `stat().size` is the
content length and `read(buffer, 0, len, pos)` yields `(content.drop pos).take
len`. -/

def TAIL_READ_SIZE : Nat := 64 * 1024

def TAIL_READ_COUNT : Nat := 50

/-- The block-reading loop of `countTotalLines`: each iteration reads at most
`blockSize` bytes, normalizes the block, splits it and adds
`lines.length - 1` newline separators. The loop advances by the bytes read
(always the full `blockSize` while data remains), so `content.length` bounds
the number of iterations; the fuel argument makes that explicit. -/
def countNlBlocksAux (blockSize : Nat) : Nat → List Char → Nat
  | _, [] => 0
  | 0, _ => 0
  | fuel + 1, l =>
    ((splitNl (normalizeNewlines (l.take blockSize))).length - 1) +
      countNlBlocksAux blockSize fuel (l.drop blockSize)

/-- Model of `countTotalLines(handle)`: count newline separators by scanning in blocks of
`min(size, 1 MiB)`; add one more line when the final byte is neither `'\n'` nor
`'\r'`. -/
def countTotalLines (content : List Char) : Nat :=
  if content.length = 0 then 0
  else
    let blockSize := min content.length (1024 * 1024)
    let fromBlocks := countNlBlocksAux blockSize content.length content
    match content.getLast? with
    | some c => if c ≠ '\n' ∧ c ≠ '\r' then fromBlocks + 1 else fromBlocks
    | none => fromBlocks

/-- JavaScript `array.slice(-n)` for `n > 0`: the last `n` elements (all of them
when `n ≥ length`). `slice(-0)` is `slice(0)`, the whole array, so callers
model `n = 0` separately. -/
def sliceLast {α : Type} (n : Nat) (l : List α) : List α := l.drop (l.length - n)

/-- Model of `tailLines.map((line, index) => ({text: line, lineNumber: start + index}))`:
pair each line with consecutive numbers starting at `n`. -/
def numberFrom (n : Nat) : List (List Char) → List (List Char × Nat)
  | [] => []
  | l :: rest => (l, n) :: numberFrom (n + 1) rest

/-- Model of `readTailLines(handle, count)` from `logWatcher.ts`: count total lines, read
the last `min(size, TAIL_READ_SIZE)` bytes, normalize and split them, shift the
first fragment when the window did not start at byte 0, keep the last `count`
segments and number them from `max(1, totalLines - kept + 1)`. -/
def readTailLines (content : List Char) (count : Nat) : List (List Char × Nat) :=
  if content.length = 0 then []
  else
    let totalLines := countTotalLines content
    if totalLines = 0 then []
    else
      let length := min content.length TAIL_READ_SIZE
      let position := content.length - length
      let text := (content.drop position).take length
      let normalized := normalizeNewlines text
      let lines := splitNl normalized
      let lines := if 0 < position ∧ lines ≠ [] then lines.tail else lines
      let tailLines := if count = 0 then lines else sliceLast count lines
      let startLineNumber := max 1 (totalLines - tailLines.length + 1)
      numberFrom startLineNumber tailLines

/-- C3: evaluation of the tail reader at the file content `"a\n"` with
requested count 50. The file has one line (`"a"`, and no unterminated trailing
fragment), and `countTotalLines` itself reports one line, yet `readTailLines`
returns two lines: the real line and a phantom empty line numbered 2 — the
trailing empty split segment of a terminator-ended file is never dropped, so
the result has `min(k, n) + 1` lines for every file ending in a terminator. -/
theorem c3_tail_phantom_line :
    readTailLines ['a', '\n'] 50 = [(['a'], 1), ([], 2)] ∧
      countTotalLines ['a', '\n'] = 1 ∧
      (readTailLines ['a', '\n'] 50).length ≠ min (countTotalLines ['a', '\n']) 50 := by
  refine ⟨by decide, by decide, by decide⟩

/-! ## The `LogWatcher` state machine

`LogWatcherCore` is the mutable per-watcher data read and written by
`emitInitialLines` / `readNewContent`: byte offset, carried remainder and the
current line number. The file handle, dispose flag and task queue are modelled
separately (`FullState`) for the lifecycle claims. -/

inductive WatcherUpdate
  | reset (lines : List (List Char × Nat))
  | append (lines : List (List Char × Nat))
deriving DecidableEq

structure LogWatcherCore where
  offset : Nat
  remainder : List Char
  currentLineNumber : Nat
deriving DecidableEq

/-- Model of `emitInitialLines()`: read the tail, record the file size as the new
offset, clear the remainder, move the line counter to the last tail line's
number (only when the tail is non-empty), and fire a `reset` update. -/
def emitInitialLines (content : List Char) (s : LogWatcherCore) :
    LogWatcherCore × WatcherUpdate :=
  let initialLines := readTailLines content TAIL_READ_COUNT
  ({ offset := content.length
     remainder := []
     currentLineNumber :=
       match initialLines.getLast? with
       | some last => last.2
       | none => s.currentLineNumber },
    WatcherUpdate.reset initialLines)

/-- Model of `readNewContent()` handling one change notification against the current
file content: truncation (size < offset) resets offset/remainder and re-emits
the tail as a `reset`; otherwise the byte range `[offset, size)` is read, fed
through the reassembler with the carried remainder, and any complete lines are
emitted as an `append` numbered from the line counter. -/
def readNewContent (content : List Char) (s : LogWatcherCore) :
    LogWatcherCore × Option WatcherUpdate :=
  if content.length < s.offset then
    let s1 : LogWatcherCore := { s with offset := content.length, remainder := [] }
    let r := emitInitialLines content s1
    (r.1, some r.2)
  else
    let len := content.length - s.offset
    if len = 0 then (s, none)
    else
      let chunk := (content.drop s.offset).take len
      let s1 : LogWatcherCore := { s with offset := s.offset + len }
      let e := extractLinesFromChunk chunk s1.remainder
      let s2 : LogWatcherCore := { s1 with remainder := e.2 }
      if e.1 = [] then (s2, none)
      else
        ({ s2 with currentLineNumber := s2.currentLineNumber + e.1.length },
          some (WatcherUpdate.append (numberFrom (s2.currentLineNumber + 1) e.1)))

/-- C4 counterexample: watch a file containing `"a\n"` (the initial tail sets
the line counter to 2), then truncate it to empty — a `reset` with no lines is
emitted and the counter is left at 2 — then append `"x\n"`: the next appended
line is numbered 3, not 1, refuting the claim that after truncation to an
empty file the numbering restarts from 1. -/
theorem c4_counterexample :
    (readNewContent [] (emitInitialLines ['a', '\n'] ⟨0, [], 0⟩).1).2 =
        some (WatcherUpdate.reset [])
      ∧ (readNewContent ['x', '\n']
            (readNewContent [] (emitInitialLines ['a', '\n'] ⟨0, [], 0⟩).1).1).2 =
          some (WatcherUpdate.append [(['x'], 3)])
      ∧ (emitInitialLines ['a', '\n'] ⟨0, [], 0⟩).1.offset = 2 := by
  refine ⟨by decide, by decide, by decide⟩

/-- C4 (amended): a change notification finding the file smaller than the
tracked offset emits a single `reset` (never an `append`) holding the fresh
tail of the new content, resets offset and remainder, and sets the line
counter to the last reset line's number — but when the truncated file yields
no tail lines the counter retains its pre-truncation value, so the next
appended line continues from the old counter rather than from 1. The last
conjunct shows the subsequent append is numbered from the post-reset counter. -/
theorem c4_truncation_reset (s : LogWatcherCore) (content c2 : List Char)
    (h : content.length < s.offset)
    (h2 : (readNewContent content s).1.offset < c2.length)
    (h3 : (extractLinesFromChunk
        ((c2.drop (readNewContent content s).1.offset).take
          (c2.length - (readNewContent content s).1.offset))
        (readNewContent content s).1.remainder).1 ≠ []) :
    (readNewContent content s).2 =
        some (WatcherUpdate.reset (readTailLines content TAIL_READ_COUNT))
      ∧ (readNewContent content s).1.offset = content.length
      ∧ (readNewContent content s).1.remainder = []
      ∧ (readNewContent content s).1.currentLineNumber =
          (match (readTailLines content TAIL_READ_COUNT).getLast? with
            | some last => last.2
            | none => s.currentLineNumber)
      ∧ (readNewContent c2 (readNewContent content s).1).2 =
          some (WatcherUpdate.append
            (numberFrom ((readNewContent content s).1.currentLineNumber + 1)
              (extractLinesFromChunk
                ((c2.drop (readNewContent content s).1.offset).take
                  (c2.length - (readNewContent content s).1.offset))
                (readNewContent content s).1.remainder).1)) := by
  have hstep : readNewContent content s =
      ((emitInitialLines content { s with offset := content.length, remainder := [] }).1,
        some (emitInitialLines content
          { s with offset := content.length, remainder := [] }).2) := by
    simp only [readNewContent]
    rw [if_pos h]
  refine ⟨?_, ?_, ?_, ?_, ?_⟩
  · rw [hstep]
    simp [emitInitialLines]
  · rw [hstep]
    simp [emitInitialLines]
  · rw [hstep]
    simp [emitInitialLines]
  · rw [hstep]
    simp [emitInitialLines]
  · obtain ⟨t, ht⟩ : ∃ t, (readNewContent content s).1 = t := ⟨_, rfl⟩
    rw [ht] at h2 h3 ⊢
    simp only [readNewContent]
    rw [if_neg (by omega), if_neg (by omega), if_neg h3]

/-- Witness for `c4_truncation_reset` at offset 5, counter 7, truncated content
`"a"` and follow-up content `"ab\nc"`. -/
theorem c4_truncation_reset_witness :
    (readNewContent ['a'] ⟨5, [], 7⟩).2 =
        some (WatcherUpdate.reset (readTailLines ['a'] TAIL_READ_COUNT))
      ∧ (readNewContent ['a'] ⟨5, [], 7⟩).1.offset = (['a'] : List Char).length
      ∧ (readNewContent ['a'] ⟨5, [], 7⟩).1.remainder = []
      ∧ (readNewContent ['a'] ⟨5, [], 7⟩).1.currentLineNumber =
          (match (readTailLines ['a'] TAIL_READ_COUNT).getLast? with
            | some last => last.2
            | none => (7 : Nat))
      ∧ (readNewContent ['a', 'b', '\n', 'c'] (readNewContent ['a'] ⟨5, [], 7⟩).1).2 =
          some (WatcherUpdate.append
            (numberFrom ((readNewContent ['a'] ⟨5, [], 7⟩).1.currentLineNumber + 1)
              (extractLinesFromChunk
                ((['a', 'b', '\n', 'c'].drop (readNewContent ['a'] ⟨5, [], 7⟩).1.offset).take
                  ((['a', 'b', '\n', 'c'] : List Char).length -
                    (readNewContent ['a'] ⟨5, [], 7⟩).1.offset))
                (readNewContent ['a'] ⟨5, [], 7⟩).1.remainder).1)) :=
  c4_truncation_reset ⟨5, [], 7⟩ ['a'] ['a', 'b', '\n', 'c']
    (by decide) (by decide) (by decide)

/-! ## Watcher lifecycle: fs subscription, task queue, dispose

`fs.watch` delivers `rename` / `change` notifications; the callback enqueues a
task (the queue is the promise chain `this.queue`), and tasks run strictly in
order, one at a time. A task observes the filesystem when it runs, modelled by
the `Option (List Char)` argument of `WAction.run`: `some c` is the content
visible through the handle (stat/read/open succeed), `none` is a stat, read or
open failure at that moment (caught by the `catch` handlers / `enqueue`'s
`catch`). `WAction.finalizeA` is the `queue.finally` callback of `dispose()`,
which runs only once the queue has drained: it closes the handle and the fs
subscription (`reset()`) and disposes the event emitter. -/

inductive EType
  | rename
  | change
deriving DecidableEq

inductive TaskKind
  | handleRename
  | handleChange
deriving DecidableEq

structure FullState where
  core : LogWatcherCore
  hasHandle : Bool
  disposed : Bool
  emitterDisposed : Bool
  subscriptionActive : Bool
  queue : List TaskKind
deriving DecidableEq

inductive WAction
  | notify (e : EType)
  | run (fs : Option (List Char))
  | disposeA
  | finalizeA
deriving DecidableEq

/-- Execution of one queued task. A rename task runs `reopen` (close handle,
try to reopen; on failure log and leave no handle) then `emitInitialLines`
(which returns immediately without a handle). A change task runs
`readNewContent` (which returns immediately without a handle, and on a stat or
read failure is caught and skips the notification). -/
def execTask (t : TaskKind) (fs : Option (List Char)) (s : FullState) :
    FullState × List WatcherUpdate :=
  match t with
  | TaskKind.handleRename =>
    match fs with
    | none => ({ s with hasHandle := false }, [])
    | some c =>
      let r := emitInitialLines c ⟨0, [], 0⟩
      ({ s with hasHandle := true, core := r.1 }, [r.2])
  | TaskKind.handleChange =>
    if s.hasHandle = false then (s, [])
    else
      match fs with
      | none => (s, [])
      | some c =>
        let r := readNewContent c s.core
        ({ s with core := r.1 }, r.2.toList)

/-- One step of the watcher lifecycle. The fs callback ignores every
notification once `disposed` is set or no handle is open; otherwise it chains
the corresponding task onto the queue. -/
def stepW (s : FullState) (a : WAction) : FullState × List WatcherUpdate :=
  match a with
  | WAction.notify e =>
    if s.subscriptionActive = false then (s, [])
    else if s.disposed = true ∨ s.hasHandle = false then (s, [])
    else
      match e with
      | EType.rename => ({ s with queue := s.queue ++ [TaskKind.handleRename] }, [])
      | EType.change => ({ s with queue := s.queue ++ [TaskKind.handleChange] }, [])
  | WAction.run fs =>
    match s.queue with
    | [] => (s, [])
    | t :: rest => execTask t fs { s with queue := rest }
  | WAction.disposeA => ({ s with disposed := true }, [])
  | WAction.finalizeA =>
    if s.disposed = true ∧ s.queue = [] then
      ({ s with
          core := ⟨0, [], 0⟩
          hasHandle := false
          subscriptionActive := false
          emitterDisposed := true }, [])
    else (s, [])

/-- Run a sequence of lifecycle actions, collecting the emitted updates in
order. -/
def runTraceAll (s : FullState) : List WAction → FullState × List WatcherUpdate
  | [] => (s, [])
  | a :: rest =>
    let p := stepW s a
    let q := runTraceAll p.1 rest
    (q.1, p.2 ++ q.2)

/-- Model of `watchFile(uri)` on a readable file: fresh state, open handle, initial tail
emission, fs subscription installed. -/
def watchFileModel (c : List Char) : FullState × WatcherUpdate :=
  let r := emitInitialLines c ⟨0, [], 0⟩
  (⟨r.1, true, false, false, true, []⟩, r.2)

theorem runTraceAll_disposed_drained :
    ∀ (tr : List WAction) (s : FullState), s.disposed = true → s.queue = [] →
      (runTraceAll s tr).2 = []
  | [], _, _, _ => rfl
  | a :: rest, s, h1, h2 => by
    cases a with
    | notify e =>
      have hstep : stepW s (WAction.notify e) = (s, []) := by
        by_cases hsub : s.subscriptionActive = false
        · simp [stepW, hsub]
        · simp [stepW, hsub, h1]
      simp only [runTraceAll, hstep]
      simpa using runTraceAll_disposed_drained rest s h1 h2
    | run fs =>
      have hstep : stepW s (WAction.run fs) = (s, []) := by
        simp [stepW, h2]
      simp only [runTraceAll, hstep]
      simpa using runTraceAll_disposed_drained rest s h1 h2
    | disposeA =>
      have hstep : stepW s WAction.disposeA = ({ s with disposed := true }, []) := rfl
      simp only [runTraceAll, hstep]
      simpa using runTraceAll_disposed_drained rest { s with disposed := true } rfl h2
    | finalizeA =>
      have hstep : stepW s WAction.finalizeA =
          ({ s with
              core := ⟨0, [], 0⟩
              hasHandle := false
              subscriptionActive := false
              emitterDisposed := true }, []) := by
        simp [stepW, h1, h2]
      simp only [runTraceAll, hstep]
      exact runTraceAll_disposed_drained rest
        { s with
            core := ⟨0, [], 0⟩
            hasHandle := false
            subscriptionActive := false
            emitterDisposed := true } h1 h2

/-- C8 counterexample: watch `"a\n"`, receive a change notification (task
enqueued), call `dispose()` — no event emitted so far — then let the already
queued task run against the grown file `"a\nb\n"`: an `append` is emitted
after `dispose()` was called, refuting the claim that once `dispose()` has
been called no update is ever emitted afterwards. -/
theorem c8_counterexample :
    (runTraceAll (watchFileModel ['a', '\n']).1
        [WAction.notify EType.change, WAction.disposeA]).2 = []
      ∧ (runTraceAll (watchFileModel ['a', '\n']).1
          [WAction.notify EType.change, WAction.disposeA]).1.disposed = true
      ∧ (runTraceAll
            (runTraceAll (watchFileModel ['a', '\n']).1
              [WAction.notify EType.change, WAction.disposeA]).1
            [WAction.run (some ['a', '\n', 'b', '\n'])]).2 =
          [WatcherUpdate.append [(['b'], 3)]] := by
  refine ⟨by decide, by decide, by decide⟩

/-- C8 (amended): any notification arriving after the `disposed` flag is set is
a no-op, and once the flag is set and the task queue has drained no update is
ever emitted again under any further actions (finalization, which releases
handle, subscription and emitter, only fires on a drained queue). A task that
was already queued when `dispose()` ran may however still emit once before the
queue drains. -/
theorem c8_disposed_no_events (s : FullState) (e : EType) (tr : List WAction)
    (h1 : s.disposed = true) (h2 : s.queue = []) :
    stepW s (WAction.notify e) = (s, []) ∧ (runTraceAll s tr).2 = [] := by
  constructor
  · by_cases hsub : s.subscriptionActive = false
    · simp [stepW, hsub]
    · simp [stepW, hsub, h1]
  · exact runTraceAll_disposed_drained tr s h1 h2

/-- Witness for `c8_disposed_no_events`: a disposed watcher with a drained
queue, probed with a change notification and a four-action trace. -/
theorem c8_disposed_no_events_witness :
    stepW ⟨⟨7, ['x'], 5⟩, true, true, false, true, []⟩ (WAction.notify EType.change) =
        (⟨⟨7, ['x'], 5⟩, true, true, false, true, []⟩, [])
      ∧ (runTraceAll ⟨⟨7, ['x'], 5⟩, true, true, false, true, []⟩
          [WAction.notify EType.rename, WAction.run (some ['y', '\n']),
            WAction.finalizeA, WAction.notify EType.change]).2 = [] :=
  c8_disposed_no_events ⟨⟨7, ['x'], 5⟩, true, true, false, true, []⟩ EType.change
    [WAction.notify EType.rename, WAction.run (some ['y', '\n']),
      WAction.finalizeA, WAction.notify EType.change] (by decide) (by decide)

/-- C9 counterexample: watch `"a\n"`, then a rename whose reopen fails (file
momentarily missing) clears the handle; a later rename arriving while the file
is readable again (`"b\n"`) is ignored by the `!this.handle` guard in the fs
callback, and the follow-up run finds an empty queue — no `reset` is ever
emitted and no handle is reopened, refuting the claimed self-healing on the
next successful rename. -/
theorem c9_counterexample :
    (runTraceAll (watchFileModel ['a', '\n']).1
        [WAction.notify EType.rename, WAction.run none,
          WAction.notify EType.rename, WAction.run (some ['b', '\n'])]).2 = []
      ∧ (runTraceAll (watchFileModel ['a', '\n']).1
          [WAction.notify EType.rename, WAction.run none,
            WAction.notify EType.rename, WAction.run (some ['b', '\n'])]).1.hasHandle =
          false
      ∧ (runTraceAll (watchFileModel ['a', '\n']).1
          [WAction.notify EType.rename, WAction.run none,
            WAction.notify EType.rename, WAction.run (some ['b', '\n'])]).1.disposed =
          false := by
  refine ⟨by decide, by decide, by decide⟩

/-- C9 (amended): a stat/read failure while handling a change notification is
caught and skips the notification with no emission and no state change; a
failed reopen is caught, emits nothing, and leaves no handle; and once no
handle is open, every subsequent notification — change and rename alike — is
ignored by the fs callback, so the watcher does not self-heal until a fresh
`watchFile` call. -/
theorem c9_failure_handling (s s2 : FullState) (e : EType) (h : s.hasHandle = false) :
    execTask TaskKind.handleChange none s2 = (s2, [])
      ∧ execTask TaskKind.handleRename none s2 = ({ s2 with hasHandle := false }, [])
      ∧ stepW s (WAction.notify e) = (s, []) := by
  refine ⟨?_, rfl, ?_⟩
  · by_cases hh : s2.hasHandle = false
    · simp [execTask, hh]
    · simp [execTask, hh]
  · by_cases hsub : s.subscriptionActive = false
    · simp [stepW, hsub]
    · simp [stepW, hsub, h]

/-- Witness for `c9_failure_handling`: a handle-less watcher probed with a
rename notification, and an active watcher probed with failing tasks. -/
theorem c9_failure_handling_witness :
    execTask TaskKind.handleChange none ⟨⟨2, ['x'], 3⟩, true, false, false, true, []⟩ =
        (⟨⟨2, ['x'], 3⟩, true, false, false, true, []⟩, [])
      ∧ execTask TaskKind.handleRename none ⟨⟨2, ['x'], 3⟩, true, false, false, true, []⟩ =
          ({ (⟨⟨2, ['x'], 3⟩, true, false, false, true, []⟩ : FullState) with
              hasHandle := false }, [])
      ∧ stepW ⟨⟨1, [], 1⟩, false, false, false, true, [TaskKind.handleChange]⟩
            (WAction.notify EType.rename) =
          (⟨⟨1, [], 1⟩, false, false, false, true, [TaskKind.handleChange]⟩, []) :=
  c9_failure_handling ⟨⟨1, [], 1⟩, false, false, false, true, [TaskKind.handleChange]⟩
    ⟨⟨2, ['x'], 3⟩, true, false, false, true, []⟩ EType.rename (by decide)

/-! ## Content transform (`contentTransform.ts`)

A JavaScript value returned by a user transform is modelled by `JSValue`:
strings, `null`, `undefined`, a generic object (whose `String()` coercion is
the fixed `"[object Object]"` placeholder) and any other value carried
together with its `String()` coercion. A call either returns a value or
throws. -/

inductive JSValue
  | vstr (s : List Char)
  | vnull
  | vundefined
  | vobj
  | vother (repr : List Char)
deriving DecidableEq

inductive CallResult
  | thrown
  | value (v : JSValue)
deriving DecidableEq

def ContentTransformFn : Type := List Char → CallResult

/-- Model of `String(v)` for the non-string, non-nullish values that reach the coercion
branch. -/
def jsString : JSValue → List Char
  | JSValue.vstr s => s
  | JSValue.vnull => "null".toList
  | JSValue.vundefined => "undefined".toList
  | JSValue.vobj => "[object Object]".toList
  | JSValue.vother r => r

structure CompiledContentTransform where
  source : List Char
  fn : Option ContentTransformFn
  error : Option (List Char)

/-- Model of `applyContentTransform(line, compiled)`: without a callable return the line;
otherwise call it — an exception returns the original line, a string result is
returned verbatim, `undefined`/`null` fall back to the original line, and any
other value is coerced with `String(...)`. -/
def applyContentTransform (line : List Char) (compiled : CompiledContentTransform) :
    List Char :=
  match compiled.fn with
  | none => line
  | some f =>
    match f line with
    | CallResult.thrown => line
    | CallResult.value r =>
      match r with
      | JSValue.vstr s => s
      | JSValue.vundefined => line
      | JSValue.vnull => line
      | v => jsString v

/-- The application policy as worded by the spec: no callable or an exception
passes the original line through; a string result is verbatim; an absent/null
result falls back to the original line; anything else is coerced to its string
representation, a generic object to the fixed `"[object Object]"` placeholder
rather than a structural dump. -/
def applyTransformSpec (line : List Char) (compiled : CompiledContentTransform) :
    List Char :=
  match compiled.fn with
  | none => line
  | some f =>
    match f line with
    | CallResult.thrown => line
    | CallResult.value (JSValue.vstr s) => s
    | CallResult.value JSValue.vnull => line
    | CallResult.value JSValue.vundefined => line
    | CallResult.value JSValue.vobj => "[object Object]".toList
    | CallResult.value (JSValue.vother r) => r

/-- C5: `applyContentTransform` implements exactly the fault-isolated
three-way result policy of the spec — pass-through without a callable or on a
thrown exception, verbatim strings, pass-through on null/undefined, `String()`
coercion otherwise with the generic-object placeholder `"[object Object]"`. -/
theorem c5_apply_transform (line : List Char) (compiled : CompiledContentTransform) :
    applyContentTransform line compiled = applyTransformSpec line compiled := by
  rcases hf : compiled.fn with _ | f
  · simp [applyContentTransform, applyTransformSpec, hf]
  · rcases hr : f line with _ | v
    · simp [applyContentTransform, applyTransformSpec, hf, hr]
    · cases v <;> simp [applyContentTransform, applyTransformSpec, hf, hr, jsString]

/-- Model of `input.trim()` (whitespace stripped from both ends). -/
def trimChars (l : List Char) : List Char :=
  ((l.dropWhile Char.isWhitespace).reverse.dropWhile Char.isWhitespace).reverse

/-- The dynamic-evaluation primitives used by `compileContentTransform`, kept
abstract: `presetReg` is the lookup `preset[trimmed]` in the built-in registry
(`{ fls: ... }`); `evalExpr` models
`new Function('"use strict"; return (trimmed);')()` plus the check that the
result is a function (`compileAsExpression`); `evalBody` models
`new Function('line', trimmed)` (`compileAsBody`). Each either yields a
callable or fails with an error message. -/
structure CompileEnv where
  presetReg : List Char → Option ContentTransformFn
  evalExpr : List Char → Except (List Char) ContentTransformFn
  evalBody : List Char → Except (List Char) ContentTransformFn

/-- Model of `compileContentTransform(input)`: trim; empty input compiles to no
transform; otherwise try the preset registry, then the expression form, then
the statement-body form, first success winning; if the body attempt also fails
the result carries its error message and no callable. -/
def compileContentTransform (env : CompileEnv) (input : List Char) :
    CompiledContentTransform :=
  let trimmed := trimChars input
  if trimmed = [] then { source := [], fn := none, error := none }
  else
    match env.presetReg trimmed with
    | some f => { source := trimmed, fn := some f, error := none }
    | none =>
      match env.evalExpr trimmed with
      | Except.ok f => { source := trimmed, fn := some f, error := none }
      | Except.error _ =>
        match env.evalBody trimmed with
        | Except.ok f => { source := trimmed, fn := some f, error := none }
        | Except.error msg => { source := trimmed, fn := none, error := some msg }

/-- The compilation policy as worded by the spec: whitespace-only input is "no
transform" (no callable, no error); otherwise the strategies preset /
expression / body are tried in order with the first success winning, and if
all fail the result has no callable and carries the statement-body attempt's
message as the diagnostic. -/
def compileTransformSpec (env : CompileEnv) (input : List Char) :
    CompiledContentTransform :=
  let trimmed := trimChars input
  if trimmed = [] then { source := [], fn := none, error := none }
  else
    let attempts : List (Option ContentTransformFn) :=
      [env.presetReg trimmed, (env.evalExpr trimmed).toOption,
        (env.evalBody trimmed).toOption]
    match attempts.findSome? id with
    | some f => { source := trimmed, fn := some f, error := none }
    | none =>
      { source := trimmed, fn := none,
        error :=
          match env.evalBody trimmed with
          | Except.error msg => some msg
          | Except.ok _ => none }

/-- C6: `compileContentTransform` tries preset, expression and body in order
with first success winning; a total failure carries the body attempt's
message; whitespace-only input yields no callable and no error; and every
result sets at most one of `fn`/`error`, with both absent only when `source`
is empty. -/
theorem c6_compile_transform (env : CompileEnv) (input : List Char) :
    compileContentTransform env input = compileTransformSpec env input
      ∧ ((compileContentTransform env input).fn = none ∨
          (compileContentTransform env input).error = none)
      ∧ ((compileContentTransform env input).source = [] ∨
          ¬((compileContentTransform env input).fn = none ∧
            (compileContentTransform env input).error = none)) := by
  by_cases ht : trimChars input = []
  · refine ⟨?_, ?_, ?_⟩ <;> simp [compileContentTransform, compileTransformSpec, ht]
  · rcases hp : env.presetReg (trimChars input) with _ | f
    · rcases he : env.evalExpr (trimChars input) with msg | f
      · rcases hb : env.evalBody (trimChars input) with msg2 | f
        · refine ⟨?_, ?_, ?_⟩ <;>
            simp [compileContentTransform, compileTransformSpec, ht, hp, he, hb,
              Except.toOption, List.findSome?]
        · refine ⟨?_, ?_, ?_⟩ <;>
            simp [compileContentTransform, compileTransformSpec, ht, hp, he, hb,
              Except.toOption, List.findSome?]
      · refine ⟨?_, ?_, ?_⟩ <;>
          simp [compileContentTransform, compileTransformSpec, ht, hp, he,
            Except.toOption, List.findSome?]
    · refine ⟨?_, ?_, ?_⟩ <;>
        simp [compileContentTransform, compileTransformSpec, ht, hp, List.findSome?]

/-! ## Keyword highlighting (`computeHighlights` from `logState.ts`) -/

/-- Model of `lower.indexOf(keyword, fromIndex)`: the first position `i ≥ fromIndex` at
which `kw` occurs in `l` (`none` when there is no such occurrence). -/
def indexOfFrom (l kw : List Char) (fromIndex : Nat) : Option Nat :=
  (List.range (l.length + 1)).find? fun i =>
    decide (fromIndex ≤ i) && kw.isPrefixOf (l.drop i)

/-- The per-keyword `while` loop of `computeHighlights`: push
`[index, index + keyword.length)` and resume scanning at
`index + keyword.length`. For a non-empty keyword every iteration advances the
scan position by at least one, so `l.length + 1` iterations always suffice;
the fuel argument makes that termination bound explicit (on an empty keyword
the source loop would not terminate, and `parseKeywords` never produces one). -/
def scanKeyword (l kw : List Char) : Nat → Nat → List (Nat × Nat)
  | _, 0 => []
  | fromIndex, fuel + 1 =>
    match indexOfFrom l kw fromIndex with
    | none => []
    | some i => (i, i + kw.length) :: scanKeyword l kw (i + kw.length) fuel

def findOccurrences (l kw : List Char) : List (Nat × Nat) :=
  scanKeyword l kw 0 (l.length + 1)

/-- Model of `ranges.sort((a, b) => a[0] - b[0])`: a stable sort by range start. -/
def sortRanges (rs : List (Nat × Nat)) : List (Nat × Nat) :=
  List.insertionSort (fun a b : Nat × Nat => a.1 ≤ b.1) rs

/-- The merge loop of `computeHighlights`: `acc` holds the already-merged
ranges in reverse; a range overlapping or touching the last merged range
(`range[0] <= last[1]`) extends it to `max(last[1], range[1])`, anything else
is pushed. -/
def mergeRangesAux : List (Nat × Nat) → List (Nat × Nat) → List (Nat × Nat)
  | acc, [] => acc.reverse
  | [], r :: rest => mergeRangesAux [r] rest
  | last :: accRest, r :: rest =>
    if r.1 ≤ last.2 then mergeRangesAux ((last.1, max last.2 r.2) :: accRest) rest
    else mergeRangesAux (r :: last :: accRest) rest

/-- Model of `computeHighlights(text, keywords)`: no keywords yields no ranges;
otherwise scan the lowercased text for every keyword, collect all occurrence
ranges, sort them by start and merge overlapping-or-touching ones. -/
def computeHighlights (text : List Char) (keywords : List (List Char)) :
    List (Nat × Nat) :=
  if keywords = [] then []
  else
    let lower := text.map Char.toLower
    let ranges := keywords.flatMap fun kw => findOccurrences lower kw
    mergeRangesAux [] (sortRanges ranges)

/-- The set of positions covered by a list of `[start, end)` ranges. -/
def rangesCover (rs : List (Nat × Nat)) : Set Nat :=
  { p | ∃ r ∈ rs, r.1 ≤ p ∧ p < r.2 }

theorem mem_rangesCover_nil {p : Nat} : p ∈ rangesCover [] ↔ False := by
  simp [rangesCover]

theorem mem_rangesCover_cons {p : Nat} {x : Nat × Nat} {xs : List (Nat × Nat)} :
    p ∈ rangesCover (x :: xs) ↔ (x.1 ≤ p ∧ p < x.2) ∨ p ∈ rangesCover xs := by
  simp [rangesCover]

theorem rangesCover_perm {l1 l2 : List (Nat × Nat)} (h : l1.Perm l2) :
    rangesCover l1 = rangesCover l2 := by
  ext p
  simp only [rangesCover, Set.mem_setOf_eq]
  constructor
  · rintro ⟨r, hr, h2⟩
    exact ⟨r, h.mem_iff.mp hr, h2⟩
  · rintro ⟨r, hr, h2⟩
    exact ⟨r, h.mem_iff.mpr hr, h2⟩

theorem rangesCover_reverse (l : List (Nat × Nat)) :
    rangesCover l.reverse = rangesCover l :=
  rangesCover_perm (List.reverse_perm l)

theorem mergeRangesAux_nil (acc : List (Nat × Nat)) :
    mergeRangesAux acc [] = acc.reverse := by
  cases acc <;> rfl

theorem mergeRangesAux_spec :
    ∀ (input acc : List (Nat × Nat)),
      List.Pairwise (fun a b : Nat × Nat => a.1 ≤ b.1) input →
      List.Pairwise (fun a b : Nat × Nat => b.2 < a.1) acc →
      (∀ x ∈ acc, x.1 ≤ x.2) →
      (∀ x ∈ input, x.1 ≤ x.2) →
      (∀ a ∈ acc.head?, ∀ x ∈ input, a.1 ≤ x.1) →
      List.Pairwise (fun a b : Nat × Nat => a.2 < b.1) (mergeRangesAux acc input)
        ∧ (∀ x ∈ mergeRangesAux acc input, x.1 ≤ x.2)
        ∧ rangesCover (mergeRangesAux acc input) = rangesCover acc ∪ rangesCover input
  | [], acc, _, hacc, haccwf, _, _ => by
    rw [mergeRangesAux_nil]
    refine ⟨List.pairwise_reverse.mpr hacc, ?_, ?_⟩
    · intro x hx
      exact haccwf x (List.mem_reverse.mp hx)
    · rw [rangesCover_reverse]
      ext p
      simp [mem_rangesCover_nil]
  | r :: rest, acc, hin, hacc, haccwf, hinwf, hhead => by
    obtain ⟨hr1, hin2⟩ := List.pairwise_cons.mp hin
    have hrwf : r.1 ≤ r.2 := hinwf r (List.mem_cons_self r rest)
    have hinwf2 : ∀ x ∈ rest, x.1 ≤ x.2 := fun x hx => hinwf x (List.mem_cons_of_mem _ hx)
    cases acc with
    | nil =>
      have IH := mergeRangesAux_spec rest [r] hin2 (by simp)
        (by
          intro x hx
          rw [List.mem_singleton.mp hx]
          exact hrwf)
        hinwf2
        (by
          intro a ha x hx
          simp at ha
          subst ha
          exact hr1 x hx)
      have hred : mergeRangesAux [] (r :: rest) = mergeRangesAux [r] rest := rfl
      refine ⟨hred ▸ IH.1, hred ▸ IH.2.1, ?_⟩
      rw [hred, IH.2.2]
      ext p
      simp only [Set.mem_union, mem_rangesCover_cons, mem_rangesCover_nil]
      tauto
    | cons last accRest =>
      obtain ⟨hacc1, hacc2⟩ := List.pairwise_cons.mp hacc
      have hlastwf : last.1 ≤ last.2 := haccwf last (List.mem_cons_self _ _)
      have hlr : last.1 ≤ r.1 := hhead last (by simp) r (List.mem_cons_self _ _)
      by_cases hbr : r.1 ≤ last.2
      · have hred : mergeRangesAux (last :: accRest) (r :: rest) =
            mergeRangesAux ((last.1, max last.2 r.2) :: accRest) rest := by
          simp only [mergeRangesAux]
          rw [if_pos hbr]
        have IH := mergeRangesAux_spec rest ((last.1, max last.2 r.2) :: accRest) hin2
          (List.pairwise_cons.mpr ⟨fun a ha => hacc1 a ha, hacc2⟩)
          (by
            intro x hx
            rcases List.mem_cons.mp hx with h | h
            · rw [h]
              exact le_trans hlastwf (le_max_left _ _)
            · exact haccwf x (List.mem_cons_of_mem _ h))
          hinwf2
          (by
            intro a ha x hx
            simp at ha
            subst ha
            exact hhead last (by simp) x (List.mem_cons_of_mem _ hx))
        refine ⟨hred ▸ IH.1, hred ▸ IH.2.1, ?_⟩
        rw [hred, IH.2.2]
        have hint : ∀ p : Nat, (last.1 ≤ p ∧ p < max last.2 r.2) ↔
            ((last.1 ≤ p ∧ p < last.2) ∨ (r.1 ≤ p ∧ p < r.2)) := by
          intro p
          omega
        ext p
        simp only [Set.mem_union, mem_rangesCover_cons]
        rw [hint p]
        tauto
      · have hlt : last.2 < r.1 := by omega
        have hred : mergeRangesAux (last :: accRest) (r :: rest) =
            mergeRangesAux (r :: last :: accRest) rest := by
          simp only [mergeRangesAux]
          rw [if_neg hbr]
        have IH := mergeRangesAux_spec rest (r :: last :: accRest) hin2
          (by
            refine List.pairwise_cons.mpr ⟨?_, List.pairwise_cons.mpr ⟨fun a ha => hacc1 a ha, hacc2⟩⟩
            intro a ha
            rcases List.mem_cons.mp ha with h | h
            · rw [h]
              exact hlt
            · have := hacc1 a h
              omega)
          (by
            intro x hx
            rcases List.mem_cons.mp hx with h | h
            · rw [h]
              exact hrwf
            · rcases List.mem_cons.mp h with h2 | h2
              · rw [h2]
                exact hlastwf
              · exact haccwf x (List.mem_cons_of_mem _ h2))
          hinwf2
          (by
            intro a ha x hx
            simp at ha
            subst ha
            exact hr1 x hx)
        refine ⟨hred ▸ IH.1, hred ▸ IH.2.1, ?_⟩
        rw [hred, IH.2.2]
        ext p
        simp only [Set.mem_union, mem_rangesCover_cons]
        tauto

theorem scanKeyword_wf (l kw : List Char) :
    ∀ (fuel fromIndex : Nat) (x : Nat × Nat), x ∈ scanKeyword l kw fromIndex fuel → x.1 ≤ x.2 := by
  intro fuel
  induction fuel with
  | zero =>
    intro fromIndex x hx
    simp [scanKeyword] at hx
  | succ n ih =>
    intro fromIndex x hx
    rcases h : indexOfFrom l kw fromIndex with _ | i
    · simp [scanKeyword, h] at hx
    · simp only [scanKeyword, h] at hx
      rcases List.mem_cons.mp hx with h2 | h2
      · rw [h2]
        simp
      · exact ih _ x h2

/-- C7: `computeHighlights` returns gap-separated ranges (each start strictly
beyond the previous end), well-formed and sorted by start, whose covered
positions are exactly those of all per-keyword occurrence ranges collected by
the resume-after-match scans; an empty keyword list yields no ranges. The
hypothesis restricts to non-empty keywords, the only ones `parseKeywords` can
produce (the source's scan loop does not terminate on an empty keyword). -/
theorem c7_highlight_merge (text : List Char) (keywords : List (List Char))
    (hkw : ∀ kw ∈ keywords, kw ≠ []) :
    List.Pairwise (fun a b : Nat × Nat => a.2 < b.1) (computeHighlights text keywords)
      ∧ (∀ x ∈ computeHighlights text keywords, x.1 ≤ x.2)
      ∧ List.Pairwise (fun a b : Nat × Nat => a.1 < b.1) (computeHighlights text keywords)
      ∧ rangesCover (computeHighlights text keywords) =
          rangesCover (keywords.flatMap fun kw =>
            findOccurrences (text.map Char.toLower) kw)
      ∧ computeHighlights text [] = [] := by
  by_cases hk : keywords = []
  · subst hk
    refine ⟨by simp [computeHighlights], by simp [computeHighlights],
      by simp [computeHighlights], by simp [computeHighlights], by simp [computeHighlights]⟩
  · set ranges := keywords.flatMap fun kw => findOccurrences (text.map Char.toLower) kw
      with hranges
    have hred : computeHighlights text keywords = mergeRangesAux [] (sortRanges ranges) := by
      simp [computeHighlights, hk, hranges]
    have hperm : (sortRanges ranges).Perm ranges := List.perm_insertionSort _ ranges
    have hwf : ∀ x ∈ ranges, x.1 ≤ x.2 := by
      intro x hx
      rw [hranges] at hx
      obtain ⟨kw, -, hxk⟩ := List.mem_flatMap.mp hx
      exact scanKeyword_wf _ kw _ _ x hxk
    have hsortwf : ∀ x ∈ sortRanges ranges, x.1 ≤ x.2 := fun x hx =>
      hwf x (hperm.mem_iff.mp hx)
    have hsorted : List.Pairwise (fun a b : Nat × Nat => a.1 ≤ b.1) (sortRanges ranges) := by
      haveI : IsTotal (Nat × Nat) (fun a b : Nat × Nat => a.1 ≤ b.1) :=
        ⟨fun a b => Nat.le_total a.1 b.1⟩
      haveI : IsTrans (Nat × Nat) (fun a b : Nat × Nat => a.1 ≤ b.1) :=
        ⟨fun a b c h1 h2 => le_trans h1 h2⟩
      exact List.sorted_insertionSort _ ranges
    have hspec := mergeRangesAux_spec (sortRanges ranges) [] hsorted (by simp) (by simp)
      hsortwf (by simp)
    have hcov : rangesCover (mergeRangesAux [] (sortRanges ranges)) = rangesCover ranges := by
      rw [hspec.2.2, rangesCover_perm hperm]
      ext p
      simp [mem_rangesCover_nil]
    refine ⟨hred ▸ hspec.1, hred ▸ hspec.2.1, ?_, ?_, by simp [computeHighlights]⟩
    · rw [hred]
      exact List.Pairwise.imp_of_mem
        (fun {a b} ha hb hab => lt_of_le_of_lt (hspec.2.1 a ha) hab) hspec.1
    · rw [hred, hcov]

/-- Witness for `c7_highlight_merge` on the text `"AbcAbc"` with keywords
`"abc"` and `"bc"` (overlapping occurrences that merge into one span). -/
theorem c7_highlight_merge_witness :
    List.Pairwise (fun a b : Nat × Nat => a.2 < b.1)
        (computeHighlights "AbcAbc".toList [['a', 'b', 'c'], ['b', 'c']])
      ∧ (∀ x ∈ computeHighlights "AbcAbc".toList [['a', 'b', 'c'], ['b', 'c']], x.1 ≤ x.2)
      ∧ List.Pairwise (fun a b : Nat × Nat => a.1 < b.1)
          (computeHighlights "AbcAbc".toList [['a', 'b', 'c'], ['b', 'c']])
      ∧ rangesCover (computeHighlights "AbcAbc".toList [['a', 'b', 'c'], ['b', 'c']]) =
          rangesCover ([['a', 'b', 'c'], ['b', 'c']].flatMap fun kw =>
            findOccurrences ("AbcAbc".toList.map Char.toLower) kw)
      ∧ computeHighlights "AbcAbc".toList [] = [] :=
  c7_highlight_merge "AbcAbc".toList [['a', 'b', 'c'], ['b', 'c']] (by decide)

/-! ## Log state store (`useLogState` in `logState.ts`)

The store keeps the entry list, the paused flag, the pending-line buffer used
while paused, and the entry id counter. `createEntryId` combines `Date.now()`
with the counter; the wall-clock part (and the timestamp field) carries no
information the claims touch, so an entry's id is modelled by the counter
value alone. -/

def MAX_ENTRIES : Nat := 2000

inductive LogLevel
  | error
  | warning
  | info
  | other
deriving DecidableEq

def isWordChar (c : Char) : Bool := c.isAlphanum || c = '_'

/-- A whole-word occurrence of `w` at position `i` of `l` (the regex `\bw\b`):
`w` occurs at `i` and both neighbours, when present, are non-word characters. -/
def matchWholeWordAt (l w : List Char) (i : Nat) : Bool :=
  w.isPrefixOf (l.drop i)
    && (match (l.take i).getLast? with
        | none => true
        | some c => !isWordChar c)
    && (match (l.drop (i + w.length)).head? with
        | none => true
        | some c => !isWordChar c)

def hasWholeWord (l w : List Char) : Bool :=
  (List.range (l.length + 1)).any fun i => matchWholeWordAt l w i

/-- Model of `detectLevel(text)`: case-insensitive whole-word match, priority
`\berror\b` then `\bwarn(?:ing)?\b` then `\binfo\b`, first match wins. -/
def detectLevel (text : List Char) : LogLevel :=
  let lower := text.map Char.toLower
  if hasWholeWord lower "error".toList then LogLevel.error
  else if (List.range (lower.length + 1)).any (fun i =>
      matchWholeWordAt lower "warning".toList i || matchWholeWordAt lower "warn".toList i) then
    LogLevel.warning
  else if hasWholeWord lower "info".toList then LogLevel.info
  else LogLevel.other

structure LogEntry where
  id : Nat
  text : List Char
  level : LogLevel
deriving DecidableEq

structure StoreState where
  entries : List LogEntry
  pendingLines : List (List Char)
  isPaused : Bool
  entryCounter : Nat
deriving DecidableEq

/-- Model of `lines.map(line => ({id: createEntryId(entryCounter++), text: line, level:
detectLevel(line), ...}))`: build one entry per line with consecutive ids. -/
def mkEntries (counter : Nat) : List (List Char) → List LogEntry
  | [] => []
  | line :: rest =>
    { id := counter, text := line, level := detectLevel line } :: mkEntries (counter + 1) rest

/-- Model of `resetEntries(lines)`: zero the counter, clear the pending buffer, replace
the entries with the (capped) fresh list. -/
def resetEntries (st : StoreState) (lines : List (List Char)) : StoreState :=
  { st with
      entryCounter := lines.length
      pendingLines := []
      entries := sliceLast MAX_ENTRIES (mkEntries 0 lines) }

/-- Model of `appendEntries(lines)`: no-op on an empty batch; otherwise append the new
entries and keep the most recent `MAX_ENTRIES`. -/
def appendEntries (st : StoreState) (lines : List (List Char)) : StoreState :=
  if lines = [] then st
  else
    { st with
        entryCounter := st.entryCounter + lines.length
        entries := sliceLast MAX_ENTRIES (st.entries ++ mkEntries st.entryCounter lines) }

/-- The store-side view of a watcher update (`logState.ts` consumes plain line
arrays). -/
inductive StoreUpdate
  | reset (lines : List (List Char))
  | append (lines : List (List Char))
deriving DecidableEq

/-- The `onDidUpdate` handler installed by `watchFile`: a reset replaces the
entries; an append while paused buffers the lines (capped); otherwise it
appends them. -/
def onUpdate (st : StoreState) (u : StoreUpdate) : StoreState :=
  match u with
  | StoreUpdate.reset lines => resetEntries st lines
  | StoreUpdate.append lines =>
    if st.isPaused then
      { st with pendingLines := sliceLast MAX_ENTRIES (st.pendingLines ++ lines) }
    else appendEntries st lines

def pause (st : StoreState) : StoreState :=
  if st.isPaused then st else { st with isPaused := true }

/-- Model of `resume()`: clear the paused flag and flush the buffered lines, if any,
through `appendEntries`. -/
def resume (st : StoreState) : StoreState :=
  if st.isPaused = false then st
  else
    let st1 := { st with isPaused := false }
    if st1.pendingLines = [] then st1
    else appendEntries { st1 with pendingLines := [] } st1.pendingLines

theorem mkEntries_texts : ∀ (c : Nat) (L : List (List Char)),
    (mkEntries c L).map LogEntry.text = L
  | _, [] => rfl
  | c, line :: rest => by simp [mkEntries, mkEntries_texts (c + 1) rest]

theorem sliceLast_length_le {α : Type} (n : Nat) (l : List α) :
    (sliceLast n l).length ≤ n := by
  simp only [sliceLast, List.length_drop]
  omega

theorem sliceLast_of_le {α : Type} {n : Nat} {l : List α} (h : l.length ≤ n) :
    sliceLast n l = l := by
  simp only [sliceLast]
  rw [Nat.sub_eq_zero_of_le h, List.drop_zero]

theorem sliceLast_map {α β : Type} (f : α → β) (n : Nat) (l : List α) :
    (sliceLast n l).map f = sliceLast n (l.map f) := by
  simp only [sliceLast, List.map_drop, List.length_map]

theorem suffix_sliceLast_append {α : Type} (A B : List α) {n : Nat} (h : B.length ≤ n) :
    B <:+ sliceLast n (A ++ B) := by
  have hk : A.length + B.length - n ≤ A.length := by omega
  simp only [sliceLast, List.length_append]
  rw [List.drop_append_of_le_length hk]
  exact List.suffix_append _ B

/-- C10: while paused, an append update buffers its lines into `pendingLines`
(keeping at most the `MAX_ENTRIES` most recent, oldest dropped first) and
leaves `entries` unchanged; `resume()` clears the flag, empties the buffer and
appends exactly the buffered lines to the entries in their original order
(the entry texts become the capped `entries ++ buffered` and the buffered
lines are a suffix); and a reset update replaces the entries and clears the
buffer regardless of the paused flag. -/
theorem c10_pause_resume (st st2 : StoreState) (lines resetL : List (List Char))
    (hp : st.isPaused = true)
    (hpl : st.pendingLines.length ≤ MAX_ENTRIES)
    (hel : st.entries.length ≤ MAX_ENTRIES) :
    onUpdate st (StoreUpdate.append lines) =
        { st with pendingLines := sliceLast MAX_ENTRIES (st.pendingLines ++ lines) }
      ∧ (onUpdate st (StoreUpdate.append lines)).entries = st.entries
      ∧ (onUpdate st (StoreUpdate.append lines)).pendingLines.length ≤ MAX_ENTRIES
      ∧ (resume st).isPaused = false
      ∧ (resume st).pendingLines = []
      ∧ (resume st).entries.map LogEntry.text =
          sliceLast MAX_ENTRIES (st.entries.map LogEntry.text ++ st.pendingLines)
      ∧ st.pendingLines <:+ (resume st).entries.map LogEntry.text
      ∧ (onUpdate st2 (StoreUpdate.reset resetL)).pendingLines = []
      ∧ (onUpdate st2 (StoreUpdate.reset resetL)).entries =
          sliceLast MAX_ENTRIES (mkEntries 0 resetL) := by
  have h6 : (resume st).entries.map LogEntry.text =
      sliceLast MAX_ENTRIES (st.entries.map LogEntry.text ++ st.pendingLines) := by
    by_cases hpe : st.pendingLines = []
    · have hr : resume st = { st with isPaused := false } := by
        simp [resume, hp, hpe]
      rw [hr, hpe, List.append_nil, sliceLast_of_le (by simpa using hel)]
    · have hr : resume st =
          appendEntries { st with isPaused := false, pendingLines := [] } st.pendingLines := by
        simp [resume, hp, hpe]
      rw [hr, appendEntries, if_neg hpe]
      simp [sliceLast_map, mkEntries_texts]
  refine ⟨?_, ?_, ?_, ?_, ?_, h6, ?_, ?_, ?_⟩
  · simp [onUpdate, hp]
  · simp [onUpdate, hp]
  · have := sliceLast_length_le MAX_ENTRIES (st.pendingLines ++ lines)
    simpa [onUpdate, hp] using this
  · by_cases hpe : st.pendingLines = [] <;> simp [resume, hp, hpe, appendEntries]
  · by_cases hpe : st.pendingLines = [] <;> simp [resume, hp, hpe, appendEntries]
  · rw [h6]
    exact suffix_sliceLast_append _ _ hpl
  · simp [onUpdate, resetEntries]
  · simp [onUpdate, resetEntries]

/-- Witness for `c10_pause_resume`: a paused store holding one entry and one
buffered line, receiving an append of `"z"`, resuming, and (for the reset
part) an unpaused store receiving a reset of `"r"`. -/
theorem c10_pause_resume_witness :
    onUpdate ⟨[⟨0, ['a'], LogLevel.other⟩], [['p']], true, 1⟩ (StoreUpdate.append [['z']]) =
        { (⟨[⟨0, ['a'], LogLevel.other⟩], [['p']], true, 1⟩ : StoreState) with
            pendingLines := sliceLast MAX_ENTRIES ([['p']] ++ [['z']]) }
      ∧ (onUpdate ⟨[⟨0, ['a'], LogLevel.other⟩], [['p']], true, 1⟩
            (StoreUpdate.append [['z']])).entries = [⟨0, ['a'], LogLevel.other⟩]
      ∧ (onUpdate ⟨[⟨0, ['a'], LogLevel.other⟩], [['p']], true, 1⟩
            (StoreUpdate.append [['z']])).pendingLines.length ≤ MAX_ENTRIES
      ∧ (resume ⟨[⟨0, ['a'], LogLevel.other⟩], [['p']], true, 1⟩).isPaused = false
      ∧ (resume ⟨[⟨0, ['a'], LogLevel.other⟩], [['p']], true, 1⟩).pendingLines = []
      ∧ (resume ⟨[⟨0, ['a'], LogLevel.other⟩], [['p']], true, 1⟩).entries.map LogEntry.text =
          sliceLast MAX_ENTRIES ([⟨0, ['a'], LogLevel.other⟩].map LogEntry.text ++ [['p']])
      ∧ [['p']] <:+ (resume ⟨[⟨0, ['a'], LogLevel.other⟩], [['p']], true, 1⟩).entries.map
          LogEntry.text
      ∧ (onUpdate ⟨[], [['q']], false, 0⟩ (StoreUpdate.reset [['r']])).pendingLines = []
      ∧ (onUpdate ⟨[], [['q']], false, 0⟩ (StoreUpdate.reset [['r']])).entries =
          sliceLast MAX_ENTRIES (mkEntries 0 [['r']]) :=
  c10_pause_resume ⟨[⟨0, ['a'], LogLevel.other⟩], [['p']], true, 1⟩ ⟨[], [['q']], false, 0⟩
    [['z']] [['r']] rfl (by decide) (by decide)

